import Mathlib

/-!
The certificate pool and the chain walk of ssl-make-chain.

A shallow embedding of `common/swim/certpool.go` (the certificate pool) and of the
chain walk of `cmd/make-chain/main.go`, followed by theorems about them. The walk of
`cmd/make-bundle/main.go` is the same closure without the debug calls; it is embedded as
`bundleWalkFunc` and shown to agree with `walkFunc` (`bundleWalkFunc_agrees`).

Conventions of the embedding:
* byte strings (`[]byte`, and the `string(...)` map keys made from them) are lists of
  naturals;
* a Go map `map[string][]int` is a function from keys to index lists, an absent key
  reading as the empty list (as a Go map read does);
* a run-time panic (index out of range) is the result `none`;
* a method with a pointer receiver that the properties speak about returns the pool it
  leaves behind;
* the recursive closure `walkFunc` carries a recursion budget; running out of it is the
  model-only outcome `WalkError.outOfFuel`.
-/

namespace Swim

/-- A byte string. -/
abbrev Bytes := List Nat

/-- The type `pkix.Name`, as far as the program observes it: the only thing the program
ever does with a name is to call its `String()` method. -/
structure Name where
  String : String
deriving DecidableEq

/-- The type `x509.Certificate`, restricted to the fields the program reads. -/
structure Certificate where
  Raw : Bytes
  RawSubject : Bytes
  RawIssuer : Bytes
  Subject : Name
  Issuer : Name
  SubjectKeyId : Bytes
deriving DecidableEq

/-- The method `(*x509.Certificate).Equal` on two non-nil certificates:
`bytes.Equal(c.Raw, other.Raw)`. -/
def Certificate.Equal (c other : Certificate) : Bool :=
  decide (c.Raw = other.Raw)

/-- The statement `m[key] = append(m[key], n)` on a `map[string][]int`. -/
def appendIndex (m : Bytes → List Nat) (key : Bytes) (n : Nat) : Bytes → List Nat :=
  fun k => if k = key then m k ++ [n] else m k

/-- The struct `CertPool`. -/
structure CertPool where
  bySubjectKeyID : Bytes → List Nat
  byName : Bytes → List Nat
  certs : List Certificate

/-- The function `NewCertPool`. -/
def NewCertPool : CertPool :=
  { bySubjectKeyID := fun _ => [], byName := fun _ => [], certs := [] }

/-- The loop of `contains` over the candidate indices: `s.certs[c]` panics (`none`) when
the index is out of range. -/
def containsLoop (certs : List Certificate) (cert : Certificate) : List Nat → Option Bool
  | [] => some false
  | c :: rest =>
    match certs[c]? with
    | none => none
    | some stored => if stored.Equal cert then some true else containsLoop certs cert rest

/-- The method `(*CertPool).contains`, on a non-nil pool. -/
def CertPool.contains (s : CertPool) (cert : Certificate) : Option Bool :=
  containsLoop s.certs cert (s.byName cert.RawSubject)

/-- The method `(*CertPool).AddCert`, on a non-nil certificate; the result is the pool
afterwards, `none` when `contains` panics. -/
def CertPool.AddCert (s : CertPool) (cert : Certificate) : Option CertPool :=
  match s.contains cert with
  | none => none
  | some true => some s
  | some false =>
    let n := s.certs.length
    some
      { certs := s.certs ++ [cert]
        bySubjectKeyID :=
          if cert.SubjectKeyId.length > 0 then appendIndex s.bySubjectKeyID cert.SubjectKeyId n
          else s.bySubjectKeyID
        byName := appendIndex s.byName cert.RawSubject n }

/-- A sequence of `AddCert` calls, first certificate first (what `AppendCertsFromPEM` does
with the certificates it manages to parse). -/
def addCerts : CertPool → List Certificate → Option CertPool
  | s, [] => some s
  | s, c :: cs =>
    match s.AddCert c with
    | none => none
    | some s1 => addCerts s1 cs

/-- The `for _, c := range s.certs` loop of `Walk`: the visit function acts on the state
`σ` it has captured and returns an optional error; the first error ends the loop. -/
def walkLoop {σ ε : Type} (walkFunc : Certificate → σ → σ × Option ε) :
    List Certificate → σ → σ × Option ε
  | [], st => (st, none)
  | c :: cs, st =>
    match walkFunc c st with
    | (st1, some err) => (st1, some err)
    | (st1, none) => walkLoop walkFunc cs st1

/-- The method `(*CertPool).Walk`: the pool afterwards, the state of the visit function
afterwards, and the returned error. -/
def CertPool.Walk {σ ε : Type} (s : CertPool) (walkFunc : Certificate → σ → σ × Option ε)
    (st : σ) : CertPool × σ × Option ε :=
  (s, walkLoop walkFunc s.certs st)

/-- The calls of `printDebugf` made by `walkFunc`, one constructor per format string, with
the rendered subject that is printed. -/
inductive DebugMsg where
  | testing (subject : String)
  | foundChain (subject : String)
  | foundRoot (subject : String)
deriving DecidableEq

/-- The errors `walkFunc` returns: `errors.New("found the root CA")`,
`errors.New("finished loop")`, and the model-only exhaustion of the recursion budget. -/
inductive WalkError where
  | foundRoot
  | finishedLoop
  | outOfFuel
deriving DecidableEq

/-- The variables `walkFunc` captures and updates: `cert`, the certificate whose issuer is
being looked for; `buf`, the certificates whose PEM block has been written to the output
buffer, in order; `log`, the `printDebugf` calls made so far. -/
structure WalkState where
  cert : Certificate
  buf : List Certificate
  log : List DebugMsg
deriving DecidableEq

/-- The closure `walkFunc` of `mainCommand`, with a recursion budget. -/
def walkFunc (caPool : CertPool) : Nat → Certificate → WalkState → WalkState × Option WalkError
  | 0, _, st => (st, some WalkError.outOfFuel)
  | fuel + 1, c, st =>
    let st1 : WalkState := { st with log := st.log ++ [DebugMsg.testing c.Subject.String] }
    if st1.cert.Issuer.String = c.Subject.String then
      let st2 : WalkState :=
        { st1 with
          log := st1.log ++ [DebugMsg.foundChain c.Subject.String]
          buf := st1.buf ++ [c] }
      if c.Subject.String = c.Issuer.String then
        ({ st2 with log := st2.log ++ [DebugMsg.foundRoot c.Subject.String] },
          some WalkError.foundRoot)
      else
        let r := (caPool.Walk (walkFunc caPool fuel) { st2 with cert := c }).2
        match r.2 with
        | some WalkError.outOfFuel => (r.1, some WalkError.outOfFuel)
        | _ => (r.1, some WalkError.finishedLoop)
    else
      (st1, none)

/-- The chain-building part of `mainCommand`: the leaf's own block is written first, then
the pool is walked with `walkFunc`. The result is the final state of the captured
variables and the error of the outermost `Walk`. -/
def mainCommand (fuel : Nat) (caPool : CertPool) (cert : Certificate) :
    WalkState × Option WalkError :=
  (caPool.Walk (walkFunc caPool fuel) { cert := cert, buf := [cert], log := [] }).2

/-! ## Auxiliary definitions -/

/-- The state reached when the visit function has been applied, in order, to every
certificate of the list, whatever it returned. -/
def visitAll {σ ε : Type} (visit : Certificate → σ → σ × Option ε) :
    List Certificate → σ → σ
  | [], st => st
  | c :: cs, st => visitAll visit cs (visit c st).1

/-- What the visit function returns when it is applied to the certificate at position `j`,
after it has been applied to the certificates before it (`none`, Go's `nil`, when there is
no such position). -/
def returnedAt {σ ε : Type} (visit : Certificate → σ → σ × Option ε)
    (certs : List Certificate) (st : σ) (j : Nat) : Option ε :=
  match certs[j]? with
  | some c => (visit c (visitAll visit (certs.take j) st)).2
  | none => none

/-- The visit function, recording in addition every certificate it is applied to. -/
def traced {σ ε : Type} (visit : Certificate → σ → σ × Option ε) :
    Certificate → σ × List Certificate → (σ × List Certificate) × Option ε :=
  fun c st => (((visit c st.1).1, st.2 ++ [c]), (visit c st.1).2)

/-- The debug line `testing chain cert: ...` for a certificate. -/
def testingMsg (c : Certificate) : DebugMsg := DebugMsg.testing c.Subject.String

/-- The list `x, y, x, y, ...` of length `n`. -/
def alternate : Nat → Certificate → Certificate → List Certificate
  | 0, _, _ => []
  | n + 1, x, y => x :: alternate n y x

/-- The certificate `x` is the first one of `certs` with its rendered subject. -/
def FirstWithSubject (certs : List Certificate) (x : Certificate) : Prop :=
  ∃ pre post, certs = pre ++ x :: post ∧ ∀ z ∈ pre, z.Subject.String ≠ x.Subject.String

/-- The subject index is exact: under every key it lists, in increasing order, the
positions of the stored certificates with that subject. -/
def IndexExact (s : CertPool) : Prop :=
  ∀ k, s.byName k =
    (List.range s.certs.length).filter
      (fun i => decide ((s.certs[i]?).map Certificate.RawSubject = some k))

/-- A stored certificate with the subject bytes and the raw bytes of `cert`. -/
def storedTwin (cert : Certificate) (d : Certificate) : Bool :=
  decide (d.RawSubject = cert.RawSubject) && d.Equal cert

/-- No two positions of `certs` hold certificates with identical raw bytes. -/
def RawUnique (s : CertPool) : Prop :=
  ∀ (i j : Nat) (a b : Certificate),
    s.certs[i]? = some a → s.certs[j]? = some b → a.Raw = b.Raw → i = j

/-- Raw bytes determine subject bytes among the certificates of `cs`, as they do for
certificates produced by `x509.ParseCertificate`, whose `RawSubject` is a part of `Raw`. -/
def RawDeterminesSubject (cs : List Certificate) : Prop :=
  ∀ a ∈ cs, ∀ b ∈ cs, a.Raw = b.Raw → a.RawSubject = b.RawSubject

/-- The variables captured by the closure `walkFunc` of make-bundle's `mainCommand`, which
makes no debug calls. -/
structure BundleState where
  cert : Certificate
  buf : List Certificate
deriving DecidableEq

/-- The closure `walkFunc` of make-bundle's `mainCommand`, with a recursion budget. -/
def bundleWalkFunc (caPool : CertPool) :
    Nat → Certificate → BundleState → BundleState × Option WalkError
  | 0, _, st => (st, some WalkError.outOfFuel)
  | fuel + 1, c, st =>
    if st.cert.Issuer.String = c.Subject.String then
      let st1 : BundleState := { st with buf := st.buf ++ [c] }
      if c.Subject.String = c.Issuer.String then
        (st1, some WalkError.foundRoot)
      else
        let r := (caPool.Walk (bundleWalkFunc caPool fuel) { st1 with cert := c }).2
        match r.2 with
        | some WalkError.outOfFuel => (r.1, some WalkError.outOfFuel)
        | _ => (r.1, some WalkError.finishedLoop)
    else
      (st, none)

/-- The state of make-chain's closure without its debug log. -/
def WalkState.forget (st : WalkState) : BundleState :=
  { cert := st.cert, buf := st.buf }

/-- The pool left by `NewCertPool` followed by `AddCert` on each certificate of the list. -/
def poolOf (cs : List Certificate) : CertPool :=
  (addCerts NewCertPool cs).getD NewCertPool

/-! ### Example certificates

`derName tag ch` is the DER encoding of the one-attribute name `CN=<ch>`, its value held in
a string of ASN.1 type `tag` (19 is PrintableString, 12 is UTF8String). `Raw` is a stand-in
for the encoding of the whole certificate. -/

/-- DER encoding of the distinguished name `CN=<ch>`. -/
def derName (tag ch : Nat) : Bytes := [48, 12, 49, 10, 48, 8, 6, 3, 85, 4, 3, tag, 1, ch]

/-- A self-signed root, `CN=R`. -/
def exRoot : Certificate :=
  { Raw := [48, 3, 2, 1, 1], RawSubject := derName 19 82, RawIssuer := derName 19 82,
    Subject := ⟨"CN=R"⟩, Issuer := ⟨"CN=R"⟩, SubjectKeyId := [82] }

/-- An intermediate `CN=I` issued by `CN=R`. -/
def exInter : Certificate :=
  { Raw := [48, 3, 2, 1, 2], RawSubject := derName 19 73, RawIssuer := derName 19 82,
    Subject := ⟨"CN=I"⟩, Issuer := ⟨"CN=R"⟩, SubjectKeyId := [73] }

/-- A second, re-issued intermediate `CN=I` (another serial number and key). -/
def exInterTwin : Certificate :=
  { Raw := [48, 3, 2, 1, 3], RawSubject := derName 19 73, RawIssuer := derName 19 82,
    Subject := ⟨"CN=I"⟩, Issuer := ⟨"CN=R"⟩, SubjectKeyId := [74] }

/-- A leaf `CN=L` issued by `CN=I`. -/
def exLeaf : Certificate :=
  { Raw := [48, 3, 2, 1, 4], RawSubject := derName 19 76, RawIssuer := derName 19 73,
    Subject := ⟨"CN=L"⟩, Issuer := ⟨"CN=I"⟩, SubjectKeyId := [] }

/-- One half of a cross-signed pair: `CN=A` issued by `CN=B`. -/
def exCrossA : Certificate :=
  { Raw := [48, 3, 2, 1, 5], RawSubject := derName 19 65, RawIssuer := derName 19 66,
    Subject := ⟨"CN=A"⟩, Issuer := ⟨"CN=B"⟩, SubjectKeyId := [] }

/-- The other half of the cross-signed pair: `CN=B` issued by `CN=A`. -/
def exCrossB : Certificate :=
  { Raw := [48, 3, 2, 1, 6], RawSubject := derName 19 66, RawIssuer := derName 19 65,
    Subject := ⟨"CN=B"⟩, Issuer := ⟨"CN=A"⟩, SubjectKeyId := [] }

/-- A certificate whose subject is `CN=R` encoded as a UTF8String, issued by the `CN=R`
whose name is encoded as a PrintableString: the two names are rendered alike and encoded
differently. -/
def exRootUtf8 : Certificate :=
  { Raw := [48, 3, 2, 1, 7], RawSubject := derName 12 82, RawIssuer := derName 19 82,
    Subject := ⟨"CN=R"⟩, Issuer := ⟨"CN=R"⟩, SubjectKeyId := [] }

/-- An intermediate whose subject is `CN=I` encoded as a UTF8String, issued by `CN=R`: its
subject is rendered like the subject of `exInter` and encoded in other bytes. -/
def exInterUtf8 : Certificate :=
  { Raw := [48, 3, 2, 1, 8], RawSubject := derName 12 73, RawIssuer := derName 19 82,
    Subject := ⟨"CN=I"⟩, Issuer := ⟨"CN=R"⟩, SubjectKeyId := [] }

/-- A leaf `CN=L` issued by the `CN=R` whose name is encoded as a UTF8String, that is, by
`exRootUtf8`. -/
def exLeafOfUtf8 : Certificate :=
  { Raw := [48, 3, 2, 1, 9], RawSubject := derName 19 76, RawIssuer := derName 12 82,
    Subject := ⟨"CN=L"⟩, Issuer := ⟨"CN=R"⟩, SubjectKeyId := [] }

/-! ## The pool: index exactness, duplicates -/

theorem indexExact_new : IndexExact NewCertPool := by
  intro k
  simp [NewCertPool]

theorem containsLoop_of_valid (certs : List Certificate) (cert : Certificate) :
    ∀ idxs : List Nat, (∀ i ∈ idxs, i < certs.length) →
      containsLoop certs cert idxs =
        some (idxs.any fun i => match certs[i]? with
          | some d => d.Equal cert
          | none => false) := by
  intro idxs
  induction idxs with
  | nil => intro _; rfl
  | cons i rest ih =>
    intro h
    have hi : i < certs.length := h i (List.mem_cons_self _ _)
    have hrest : ∀ j ∈ rest, j < certs.length := fun j hj => h j (List.mem_cons_of_mem _ hj)
    have hget : certs[i]? = some certs[i] := List.getElem?_eq_getElem hi
    simp only [containsLoop, hget, List.any_cons]
    by_cases heq : certs[i].Equal cert = true
    · simp [heq]
    · simp only [heq, Bool.false_eq_true, if_false, Bool.false_or]
      exact ih hrest

theorem contains_of_indexExact (s : CertPool) (cert : Certificate) (h : IndexExact s) :
    s.contains cert = some (s.certs.any (storedTwin cert)) := by
  unfold CertPool.contains
  rw [containsLoop_of_valid]
  · congr 1
    rw [Bool.eq_iff_iff]
    simp only [List.any_eq_true]
    constructor
    · rintro ⟨i, hi, hhit⟩
      rw [h] at hi
      simp only [List.mem_filter, List.mem_range, decide_eq_true_eq] at hi
      obtain ⟨hlt, hsub⟩ := hi
      have hget : s.certs[i]? = some s.certs[i] := List.getElem?_eq_getElem hlt
      rw [hget] at hhit hsub
      refine ⟨s.certs[i], List.getElem_mem _, ?_⟩
      simp only [Option.map_some', Option.some.injEq] at hsub
      simp only [storedTwin, hsub, decide_True, Bool.true_and]
      exact hhit
    · rintro ⟨d, hd, htwin⟩
      obtain ⟨i, hlt, rfl⟩ := List.getElem_of_mem hd
      simp only [storedTwin, Bool.and_eq_true, decide_eq_true_eq] at htwin
      have hget : s.certs[i]? = some s.certs[i] := List.getElem?_eq_getElem hlt
      refine ⟨i, ?_, ?_⟩
      · rw [h]
        simp only [List.mem_filter, List.mem_range, decide_eq_true_eq]
        exact ⟨hlt, by rw [hget]; simp [htwin.1]⟩
      · rw [hget]; exact htwin.2
  · intro i hi
    rw [h] at hi
    simp only [List.mem_filter, List.mem_range] at hi
    exact hi.1

theorem indexExact_append (s : CertPool) (cert : Certificate) (keys : Bytes → List Nat)
    (h : IndexExact s) :
    IndexExact
      { certs := s.certs ++ [cert]
        bySubjectKeyID := keys
        byName := appendIndex s.byName cert.RawSubject s.certs.length } := by
  intro k
  have hold : (List.range s.certs.length).filter
        (fun i => decide (((s.certs ++ [cert])[i]?).map Certificate.RawSubject = some k)) =
      (List.range s.certs.length).filter
        (fun i => decide ((s.certs[i]?).map Certificate.RawSubject = some k)) := by
    apply List.filter_congr
    intro i hi
    rw [List.mem_range] at hi
    rw [List.getElem?_append_left hi]
  simp only [List.length_append, List.length_singleton, List.range_succ, List.filter_append,
    hold, appendIndex]
  by_cases hk : k = cert.RawSubject
  · subst hk
    simp [h cert.RawSubject]
  · have hk2 : ¬ cert.RawSubject = k := fun e => hk e.symm
    simp [hk, hk2, h k]

theorem addCert_of_indexExact (s : CertPool) (cert : Certificate) (h : IndexExact s) :
    ∃ p, s.AddCert cert = some p ∧ IndexExact p ∧
      p.certs = (if s.certs.any (storedTwin cert) then s.certs else s.certs ++ [cert]) := by
  unfold CertPool.AddCert
  rw [contains_of_indexExact s cert h]
  by_cases hany : s.certs.any (storedTwin cert) = true
  · simp only [hany, if_true]
    exact ⟨s, rfl, h, rfl⟩
  · have hfalse : s.certs.any (storedTwin cert) = false := by simpa using hany
    simp only [hfalse, Bool.false_eq_true, if_false]
    exact ⟨_, rfl, indexExact_append s cert _ h, rfl⟩

theorem addCerts_of_indexExact (cs : List Certificate) :
    ∀ s : CertPool, IndexExact s → ∃ p, addCerts s cs = some p ∧ IndexExact p := by
  induction cs with
  | nil => intro s h; exact ⟨s, rfl, h⟩
  | cons c cs ih =>
    intro s h
    obtain ⟨p, hp, hex, _⟩ := addCert_of_indexExact s c h
    obtain ⟨q, hq, hqex⟩ := ih p hex
    exact ⟨q, by simp only [addCerts, hp, hq], hqex⟩

theorem lookup_eq_filter (k : Bytes) (l : List Certificate) :
    ((List.range l.length).filter
        (fun i => decide ((l[i]?).map Certificate.RawSubject = some k))).filterMap
        (fun i => l[i]?) =
      l.filter (fun c => decide (c.RawSubject = k)) := by
  induction l using List.reverseRecOn with
  | nil => rfl
  | append_singleton l a ih =>
    have hold : (List.range l.length).filter
          (fun i => decide (((l ++ [a])[i]?).map Certificate.RawSubject = some k)) =
        (List.range l.length).filter
          (fun i => decide ((l[i]?).map Certificate.RawSubject = some k)) := by
      apply List.filter_congr
      intro i hi
      rw [List.mem_range] at hi
      rw [List.getElem?_append_left hi]
    have hmap : ∀ idxs : List Nat, (∀ i ∈ idxs, i < l.length) →
        idxs.filterMap (fun i => (l ++ [a])[i]?) = idxs.filterMap (fun i => l[i]?) := by
      intro idxs hidx
      induction idxs with
      | nil => rfl
      | cons i rest ihr =>
        have hi : i < l.length := hidx i (List.mem_cons_self _ _)
        have hr := ihr (fun j hj => hidx j (List.mem_cons_of_mem _ hj))
        simp only [List.filterMap_cons, List.getElem?_append_left hi, hr]
    simp only [List.length_append, List.length_singleton, List.range_succ, List.filter_append,
      hold, List.filterMap_append]
    rw [hmap _ (fun i hi => by
      simp only [List.mem_filter, List.mem_range] at hi
      exact hi.1), ih]
    by_cases hk : a.RawSubject = k
    · simp [hk]
    · simp [hk]

theorem addCerts_nodup (all : List Certificate) (hall : RawDeterminesSubject all)
    (cs : List Certificate) :
    ∀ s : CertPool, IndexExact s → (s.certs.map Certificate.Raw).Nodup →
      (∀ a ∈ s.certs, a ∈ all) → (∀ a ∈ cs, a ∈ all) →
      ∃ p, addCerts s cs = some p ∧ (p.certs.map Certificate.Raw).Nodup := by
  induction cs with
  | nil => intro s _ hnd _ _; exact ⟨s, rfl, hnd⟩
  | cons c cs ih =>
    intro s hex hnd hs hcs
    obtain ⟨p, hp, hpex, hpc⟩ := addCert_of_indexExact s c hex
    have hc : c ∈ all := hcs c (List.mem_cons_self _ _)
    have hrest : ∀ a ∈ cs, a ∈ all := fun a ha => hcs a (List.mem_cons_of_mem _ ha)
    have hpnd : (p.certs.map Certificate.Raw).Nodup ∧ ∀ a ∈ p.certs, a ∈ all := by
      rw [hpc]
      by_cases hany : s.certs.any (storedTwin c) = true
      · simp only [hany, if_true]; exact ⟨hnd, hs⟩
      · simp only [hany, Bool.false_eq_true, if_false]
        constructor
        · rw [List.map_append, List.nodup_append]
          refine ⟨hnd, List.nodup_singleton _, ?_⟩
          intro r hr hr2
          simp only [List.map_cons, List.map_nil, List.mem_singleton] at hr2
          obtain ⟨d, hd, hdr⟩ := List.mem_map.mp hr
          apply hany
          rw [List.any_eq_true]
          refine ⟨d, hd, ?_⟩
          have hraw : d.Raw = c.Raw := by rw [hdr, hr2]
          simp only [storedTwin, Certificate.Equal, Bool.and_eq_true, decide_eq_true_eq]
          exact ⟨hall d (hs d hd) c hc hraw, hraw⟩
        · intro a ha
          rcases List.mem_append.mp ha with h1 | h1
          · exact hs a h1
          · rw [List.mem_singleton] at h1; rw [h1]; exact hc
    obtain ⟨q, hq, hqnd⟩ := ih p hpex hpnd.1 hpnd.2 hrest
    exact ⟨q, by simp only [addCerts, hp, hq], hqnd⟩

theorem rawUnique_of_nodup (s : CertPool) (h : (s.certs.map Certificate.Raw).Nodup) :
    RawUnique s := by
  intro i j a b hi hj hab
  have hi2 : (s.certs.map Certificate.Raw)[i]? = some a.Raw := by
    rw [List.getElem?_map, hi]; rfl
  have hj2 : (s.certs.map Certificate.Raw)[j]? = some a.Raw := by
    rw [List.getElem?_map, hj, hab]; rfl
  obtain ⟨hil, hie⟩ := List.getElem?_eq_some_iff.mp hi2
  obtain ⟨hjl, hje⟩ := List.getElem?_eq_some_iff.mp hj2
  exact (List.Nodup.getElem_inj_iff h).mp (hie.trans hje.symm)

theorem walkLoop_spec {σ ε : Type} (visit : Certificate → σ → σ × Option ε) :
    ∀ (l : List Certificate) (st : σ) (seen : List Certificate),
      ∃ k, k ≤ l.length ∧ (∀ j, j < k → returnedAt visit l st j = none) ∧
        ((k = l.length ∧ walkLoop visit l st = (visitAll visit l st, none) ∧
            walkLoop (traced visit) l (st, seen) = ((visitAll visit l st, seen ++ l), none)) ∨
          (k < l.length ∧ ∃ e, returnedAt visit l st k = some e ∧
            walkLoop visit l st = (visitAll visit (l.take (k + 1)) st, some e) ∧
            walkLoop (traced visit) l (st, seen) =
              ((visitAll visit (l.take (k + 1)) st, seen ++ l.take (k + 1)), some e))) := by
  intro l
  induction l with
  | nil =>
    intro st seen
    exact ⟨0, le_refl _, fun j hj => absurd hj (Nat.not_lt_zero j),
      Or.inl ⟨rfl, rfl, by simp [walkLoop, visitAll]⟩⟩
  | cons c cs ih =>
    intro st seen
    cases hv : (visit c st).2 with
    | some e =>
      refine ⟨0, Nat.zero_le _, fun j hj => absurd hj (Nat.not_lt_zero j), Or.inr ⟨?_, e, ?_, ?_, ?_⟩⟩
      · simp
      · simp [returnedAt, visitAll, hv]
      · have : visit c st = ((visit c st).1, some e) := by rw [← hv]
        rw [walkLoop, this]
        simp [visitAll]
      · have : traced visit c (st, seen) = (((visit c st).1, seen ++ [c]), some e) := by
          simp [traced, hv]
        rw [walkLoop, this]
        simp [visitAll]
    | none =>
      obtain ⟨k, hk, hbefore, hcase⟩ := ih (visit c st).1 (seen ++ [c])
      have hstep : walkLoop visit (c :: cs) st = walkLoop visit cs (visit c st).1 := by
        have : visit c st = ((visit c st).1, none) := by rw [← hv]
        rw [walkLoop, this]
      have hstepT : walkLoop (traced visit) (c :: cs) (st, seen) =
          walkLoop (traced visit) cs ((visit c st).1, seen ++ [c]) := by
        have : traced visit c (st, seen) = (((visit c st).1, seen ++ [c]), none) := by
          simp [traced, hv]
        rw [walkLoop, this]
      have hret : ∀ j, returnedAt visit (c :: cs) st (j + 1) =
          returnedAt visit cs (visit c st).1 j := by
        intro j
        simp [returnedAt, visitAll]
      refine ⟨k + 1, Nat.succ_le_succ hk, ?_, ?_⟩
      · intro j hj
        cases j with
        | zero => simp [returnedAt, visitAll, hv]
        | succ j => rw [hret]; exact hbefore j (Nat.lt_of_succ_lt_succ hj)
      · rcases hcase with ⟨hlen, h1, h2⟩ | ⟨hlt, e, he, h1, h2⟩
        · refine Or.inl ⟨by simp [hlen], ?_, ?_⟩
          · rw [hstep, h1]; rfl
          · rw [hstepT, h2]; simp [visitAll]
        · refine Or.inr ⟨by simpa using hlt, e, ?_, ?_, ?_⟩
          · rw [hret]; exact he
          · rw [hstep, h1]; simp [visitAll]
          · rw [hstepT, h2]; simp [visitAll]

/-! ## The chain walk -/

theorem walkFunc_miss (caPool : CertPool) (fuel : Nat) (c : Certificate) (st : WalkState)
    (h : st.cert.Issuer.String ≠ c.Subject.String) :
    walkFunc caPool (fuel + 1) c st = ({ st with log := st.log ++ [testingMsg c] }, none) := by
  simp [walkFunc, h, testingMsg]

theorem walkFunc_root (caPool : CertPool) (fuel : Nat) (c : Certificate) (st : WalkState)
    (h : st.cert.Issuer.String = c.Subject.String) (hr : c.Subject.String = c.Issuer.String) :
    walkFunc caPool (fuel + 1) c st =
      ({ cert := st.cert, buf := st.buf ++ [c],
         log := st.log ++ [testingMsg c, DebugMsg.foundChain c.Subject.String,
           DebugMsg.foundRoot c.Subject.String] },
        some WalkError.foundRoot) := by
  simp [walkFunc, h, hr.symm, testingMsg]

theorem walkFunc_climb (caPool : CertPool) (fuel : Nat) (c : Certificate) (st : WalkState)
    (h : st.cert.Issuer.String = c.Subject.String) (hr : c.Subject.String ≠ c.Issuer.String) :
    walkFunc caPool (fuel + 1) c st =
      ((walkLoop (walkFunc caPool fuel) caPool.certs
          { cert := c, buf := st.buf ++ [c],
            log := st.log ++ [testingMsg c, DebugMsg.foundChain c.Subject.String] }).1,
        some (if (walkLoop (walkFunc caPool fuel) caPool.certs
            { cert := c, buf := st.buf ++ [c],
              log := st.log ++ [testingMsg c, DebugMsg.foundChain c.Subject.String] }).2 =
              some WalkError.outOfFuel
          then WalkError.outOfFuel else WalkError.finishedLoop)) := by
  simp only [walkFunc, h, hr, if_true, if_false, CertPool.Walk, testingMsg, List.append_assoc,
    List.singleton_append]
  split
  · next heq => simp [heq]
  · next hne =>
    have : ¬ (walkLoop (walkFunc caPool fuel) caPool.certs
        { cert := c, buf := st.buf ++ [c],
          log := st.log ++ [DebugMsg.testing c.Subject.String,
            DebugMsg.foundChain c.Subject.String] }).2 = some WalkError.outOfFuel := by
      intro e; exact hne e
    simp [this]

theorem walkFunc_hit_ne_none (caPool : CertPool) (fuel : Nat) (c : Certificate) (st : WalkState)
    (h : st.cert.Issuer.String = c.Subject.String) :
    (walkFunc caPool (fuel + 1) c st).2 ≠ none := by
  by_cases hr : c.Subject.String = c.Issuer.String
  · rw [walkFunc_root caPool fuel c st h hr]; simp
  · rw [walkFunc_climb caPool fuel c st h hr]; simp

theorem walkLoop_skip (caPool : CertPool) (fuel : Nat) (pre : List Certificate) :
    ∀ (rest : List Certificate) (st : WalkState),
      (∀ c ∈ pre, c.Subject.String ≠ st.cert.Issuer.String) →
      walkLoop (walkFunc caPool (fuel + 1)) (pre ++ rest) st =
        walkLoop (walkFunc caPool (fuel + 1)) rest
          { st with log := st.log ++ pre.map testingMsg } := by
  induction pre with
  | nil => intro rest st _; simp
  | cons c pre ih =>
    intro rest st h
    have hc : st.cert.Issuer.String ≠ c.Subject.String :=
      fun e => h c (List.mem_cons_self _ _) e.symm
    have hpre : ∀ d ∈ pre, d.Subject.String ≠ st.cert.Issuer.String :=
      fun d hd => h d (List.mem_cons_of_mem _ hd)
    rw [List.cons_append, walkLoop, walkFunc_miss caPool fuel c st hc]
    simp only
    rw [ih rest { cert := st.cert, buf := st.buf, log := st.log ++ [testingMsg c] } hpre]
    simp

theorem walkLoop_no_issuer (caPool : CertPool) (fuel : Nat) (certs : List Certificate)
    (st : WalkState) (h : ∀ c ∈ certs, c.Subject.String ≠ st.cert.Issuer.String) :
    walkLoop (walkFunc caPool (fuel + 1)) certs st =
      ({ st with log := st.log ++ certs.map testingMsg }, none) := by
  have := walkLoop_skip caPool fuel certs [] st h
  simpa [walkLoop] using this

theorem walkLoop_first_issuer (caPool : CertPool) (fuel : Nat) (pre post : List Certificate)
    (c : Certificate) (st : WalkState)
    (hpre : ∀ d ∈ pre, d.Subject.String ≠ st.cert.Issuer.String)
    (hc : c.Subject.String = st.cert.Issuer.String) :
    walkLoop (walkFunc caPool (fuel + 1)) (pre ++ c :: post) st =
      walkFunc caPool (fuel + 1) c { st with log := st.log ++ pre.map testingMsg } := by
  rw [walkLoop_skip caPool fuel pre (c :: post) st hpre, walkLoop]
  have hne := walkFunc_hit_ne_none caPool fuel c
    { st with log := st.log ++ pre.map testingMsg } hc.symm
  cases hres : walkFunc caPool (fuel + 1) c { st with log := st.log ++ pre.map testingMsg } with
  | mk st1 err =>
    cases err with
    | none => rw [hres] at hne; exact absurd rfl hne
    | some e => rfl

theorem first_with (P : Certificate → Prop) [DecidablePred P] :
    ∀ l : List Certificate, (∃ x ∈ l, P x) →
      ∃ pre y post, l = pre ++ y :: post ∧ P y ∧ ∀ z ∈ pre, ¬ P z := by
  intro l
  induction l with
  | nil => rintro ⟨x, hx, _⟩; exact absurd hx (List.not_mem_nil x)
  | cons a l ih =>
    rintro ⟨x, hx, hP⟩
    by_cases ha : P a
    · exact ⟨[], a, l, rfl, ha, fun z hz => absurd hz (List.not_mem_nil z)⟩
    · have hx2 : x ∈ l := by
        rcases List.mem_cons.mp hx with h | h
        · rw [h] at hP; exact absurd hP ha
        · exact h
      obtain ⟨pre, y, post, hl, hy, hpre⟩ := ih ⟨x, hx2, hP⟩
      refine ⟨a :: pre, y, post, by rw [hl]; rfl, hy, ?_⟩
      intro z hz
      rcases List.mem_cons.mp hz with h | h
      · rw [h]; exact ha
      · exact hpre z h

theorem first_unique (P : Certificate → Prop) :
    ∀ (p1 p2 q1 q2 : List Certificate) (x y : Certificate),
      p1 ++ x :: q1 = p2 ++ y :: q2 → P x → P y →
      (∀ z ∈ p1, ¬ P z) → (∀ z ∈ p2, ¬ P z) → x = y := by
  intro p1
  induction p1 with
  | nil =>
    intro p2 q1 q2 x y heq hx hy _ h2
    cases p2 with
    | nil => simp only [List.nil_append, List.cons.injEq] at heq; exact heq.1
    | cons b p2 =>
      simp only [List.nil_append, List.cons_append, List.cons.injEq] at heq
      exact absurd (heq.1 ▸ hx) (h2 b (List.mem_cons_self _ _))
  | cons a p1 ih =>
    intro p2 q1 q2 x y heq hx hy h1 h2
    cases p2 with
    | nil =>
      simp only [List.nil_append, List.cons_append, List.cons.injEq] at heq
      exact absurd (heq.1 ▸ hy) (h1 a (List.mem_cons_self _ _))
    | cons b p2 =>
      simp only [List.cons_append, List.cons.injEq] at heq
      exact ih p2 q1 q2 x y heq.2 hx hy
        (fun z hz => h1 z (List.mem_cons_of_mem _ hz))
        (fun z hz => h2 z (List.mem_cons_of_mem _ hz))

theorem firstWithSubject_unique (certs : List Certificate) (x y : Certificate)
    (hx : FirstWithSubject certs x) (hy : FirstWithSubject certs y)
    (hxy : x.Subject.String = y.Subject.String) : x = y := by
  obtain ⟨p1, q1, h1, hp1⟩ := hx
  obtain ⟨p2, q2, h2, hp2⟩ := hy
  exact first_unique (fun z => z.Subject.String = x.Subject.String) p1 p2 q1 q2 x y
    (h1.symm.trans h2) rfl hxy.symm hp1 (fun z hz => by rw [hxy]; exact hp2 z hz)

theorem walkLoop_zero (caPool : CertPool) (certs : List Certificate) (st : WalkState) :
    (walkLoop (walkFunc caPool 0) certs st).1 = st ∧
      (certs ≠ [] → (walkLoop (walkFunc caPool 0) certs st).2 = some WalkError.outOfFuel) := by
  cases certs with
  | nil => simp [walkLoop]
  | cons c cs => simp [walkLoop, walkFunc]

theorem appended_first (caPool : CertPool) :
    ∀ (fuel : Nat) (st : WalkState),
      ∃ tail, (walkLoop (walkFunc caPool fuel) caPool.certs st).1.buf = st.buf ++ tail ∧
        ∀ x ∈ tail, FirstWithSubject caPool.certs x := by
  intro fuel
  induction fuel with
  | zero =>
    intro st
    exact ⟨[], by rw [(walkLoop_zero caPool caPool.certs st).1]; simp,
      fun x hx => absurd hx (List.not_mem_nil x)⟩
  | succ fuel ih =>
    intro st
    by_cases hex : ∃ x ∈ caPool.certs, x.Subject.String = st.cert.Issuer.String
    · obtain ⟨pre, y, post, hl, hy, hpre⟩ :=
        first_with (fun x => x.Subject.String = st.cert.Issuer.String) caPool.certs hex
      have hfirst : FirstWithSubject caPool.certs y :=
        ⟨pre, post, hl, fun z hz => by rw [hy]; exact hpre z hz⟩
      have hstep := walkLoop_first_issuer caPool fuel pre post y st hpre hy
      rw [← hl] at hstep
      rw [hstep]
      by_cases hr : y.Subject.String = y.Issuer.String
      · rw [walkFunc_root caPool fuel y
          { cert := st.cert, buf := st.buf, log := st.log ++ pre.map testingMsg } hy.symm hr]
        refine ⟨[y], rfl, ?_⟩
        intro x hx
        rw [List.mem_singleton] at hx
        rw [hx]; exact hfirst
      · rw [walkFunc_climb caPool fuel y
          { cert := st.cert, buf := st.buf, log := st.log ++ pre.map testingMsg } hy.symm hr]
        obtain ⟨tail, ht, hall⟩ := ih
          { cert := y, buf := st.buf ++ [y],
            log := st.log ++ pre.map testingMsg ++
              [testingMsg y, DebugMsg.foundChain y.Subject.String] }
        refine ⟨y :: tail, ?_, ?_⟩
        · show (walkLoop (walkFunc caPool fuel) caPool.certs _).1.buf = _
          rw [ht]; simp
        · intro x hx
          rcases List.mem_cons.mp hx with h | h
          · rw [h]; exact hfirst
          · exact hall x h
    · have hno : ∀ c ∈ caPool.certs, c.Subject.String ≠ st.cert.Issuer.String :=
        fun c hc e => hex ⟨c, hc, e⟩
      rw [walkLoop_no_issuer caPool fuel caPool.certs st hno]
      exact ⟨[], by simp, fun x hx => absurd hx (List.not_mem_nil x)⟩

theorem cycle_step (caPool : CertPool) (X Y : Certificate) (fuel : Nat)
    (hX : X ∈ caPool.certs)
    (honly : ∀ c ∈ caPool.certs, c.Subject.String = X.Subject.String → c = X)
    (hXY : X.Issuer.String = Y.Subject.String) (hnX : X.Subject.String ≠ X.Issuer.String)
    (ih : ∀ st : WalkState, st.cert.Issuer.String = Y.Subject.String →
      (walkLoop (walkFunc caPool fuel) caPool.certs st).1.buf = st.buf ++ alternate fuel Y X ∧
        (walkLoop (walkFunc caPool fuel) caPool.certs st).2 = some WalkError.outOfFuel)
    (st : WalkState) (hst : st.cert.Issuer.String = X.Subject.String) :
    (walkLoop (walkFunc caPool (fuel + 1)) caPool.certs st).1.buf =
        st.buf ++ alternate (fuel + 1) X Y ∧
      (walkLoop (walkFunc caPool (fuel + 1)) caPool.certs st).2 =
        some WalkError.outOfFuel := by
  obtain ⟨pre, y, post, hl, hy, hpre⟩ :=
    first_with (fun x => x.Subject.String = st.cert.Issuer.String) caPool.certs
      ⟨X, hX, hst.symm⟩
  have hyX : y = X := by
    apply honly y
    · rw [hl]; simp
    · rw [← hst]; exact hy
  subst hyX
  have hstep := walkLoop_first_issuer caPool fuel pre post y st hpre hy
  rw [← hl] at hstep
  rw [hstep, walkFunc_climb caPool fuel y
    { cert := st.cert, buf := st.buf, log := st.log ++ pre.map testingMsg } hy.symm hnX]
  obtain ⟨hbuf, herr⟩ := ih
    { cert := y, buf := st.buf ++ [y],
      log := st.log ++ pre.map testingMsg ++
        [testingMsg y, DebugMsg.foundChain y.Subject.String] } hXY
  constructor
  · show (walkLoop (walkFunc caPool fuel) caPool.certs _).1.buf = _
    rw [hbuf]; simp [alternate]
  · show some (if (walkLoop (walkFunc caPool fuel) caPool.certs _).2 = _ then _ else _) = _
    rw [herr]; simp

theorem cycle_walk (caPool : CertPool) (A B : Certificate)
    (hA : A ∈ caPool.certs) (hB : B ∈ caPool.certs)
    (hAB : A.Issuer.String = B.Subject.String) (hBA : B.Issuer.String = A.Subject.String)
    (hnA : A.Subject.String ≠ A.Issuer.String) (hnB : B.Subject.String ≠ B.Issuer.String)
    (honlyA : ∀ c ∈ caPool.certs, c.Subject.String = A.Subject.String → c = A)
    (honlyB : ∀ c ∈ caPool.certs, c.Subject.String = B.Subject.String → c = B) :
    ∀ (fuel : Nat) (st : WalkState),
      (st.cert.Issuer.String = B.Subject.String →
        (walkLoop (walkFunc caPool fuel) caPool.certs st).1.buf =
            st.buf ++ alternate fuel B A ∧
          (walkLoop (walkFunc caPool fuel) caPool.certs st).2 = some WalkError.outOfFuel) ∧
      (st.cert.Issuer.String = A.Subject.String →
        (walkLoop (walkFunc caPool fuel) caPool.certs st).1.buf =
            st.buf ++ alternate fuel A B ∧
          (walkLoop (walkFunc caPool fuel) caPool.certs st).2 = some WalkError.outOfFuel) := by
  intro fuel
  induction fuel with
  | zero =>
    intro st
    have hne : caPool.certs ≠ [] := List.ne_nil_of_mem hA
    have h0 := walkLoop_zero caPool caPool.certs st
    exact ⟨fun _ => ⟨by rw [h0.1]; simp [alternate], h0.2 hne⟩,
      fun _ => ⟨by rw [h0.1]; simp [alternate], h0.2 hne⟩⟩
  | succ fuel ih =>
    intro st
    exact ⟨cycle_step caPool B A fuel hB honlyB hBA hnB (fun s hs => (ih s).2 hs) st,
      cycle_step caPool A B fuel hA honlyA hAB hnA (fun s hs => (ih s).1 hs) st⟩

theorem walkLoop_forget (f : Certificate → BundleState → BundleState × Option WalkError)
    (g : Certificate → WalkState → WalkState × Option WalkError)
    (h : ∀ c st, f c st.forget = ((g c st).1.forget, (g c st).2)) :
    ∀ (l : List Certificate) (st : WalkState),
      walkLoop f l st.forget = ((walkLoop g l st).1.forget, (walkLoop g l st).2) := by
  intro l
  induction l with
  | nil => intro st; rfl
  | cons c cs ih =>
    intro st
    rw [walkLoop, walkLoop, h c st]
    cases hg : g c st with
    | mk st1 err =>
      cases err with
      | none => exact ih st1
      | some e => rfl

theorem bundleWalkFunc_agrees (caPool : CertPool) :
    ∀ (fuel : Nat) (c : Certificate) (st : WalkState),
      bundleWalkFunc caPool fuel c st.forget =
        ((walkFunc caPool fuel c st).1.forget, (walkFunc caPool fuel c st).2) := by
  intro fuel
  induction fuel with
  | zero => intro c st; rfl
  | succ fuel ih =>
    intro c st
    by_cases h : st.cert.Issuer.String = c.Subject.String
    · by_cases hr : c.Subject.String = c.Issuer.String
      · rw [walkFunc_root caPool fuel c st h hr]
        simp [bundleWalkFunc, WalkState.forget, h, hr.symm]
      · rw [walkFunc_climb caPool fuel c st h hr]
        have hloop := walkLoop_forget (bundleWalkFunc caPool fuel) (walkFunc caPool fuel) ih
          caPool.certs
          { cert := c, buf := st.buf ++ [c],
            log := st.log ++ [testingMsg c, DebugMsg.foundChain c.Subject.String] }
        have hh : st.forget.cert.Issuer.String = c.Subject.String := h
        simp only [bundleWalkFunc, hh, hr, if_true, if_false, CertPool.Walk]
        simp only [WalkState.forget] at hloop
        simp only [WalkState.forget]
        rw [hloop]
        simp only
        split
        · next heq => simp [heq]
        · next hne =>
          have : ¬ (walkLoop (walkFunc caPool fuel) caPool.certs
              { cert := c, buf := st.buf ++ [c],
                log := st.log ++ [testingMsg c, DebugMsg.foundChain c.Subject.String] }).2 =
                some WalkError.outOfFuel := fun e => hne e
          simp [this]
    · rw [walkFunc_miss caPool fuel c st h]
      have hh : ¬ st.forget.cert.Issuer.String = c.Subject.String := h
      simp only [bundleWalkFunc, hh, if_false]
      rfl

theorem mainCommand_eq (fuel : Nat) (caPool : CertPool) (cert : Certificate) :
    mainCommand fuel caPool cert =
      walkLoop (walkFunc caPool fuel) caPool.certs { cert := cert, buf := [cert], log := [] } :=
  rfl

theorem addCerts_total (cs : List Certificate) :
    ∃ p, addCerts NewCertPool cs = some p ∧ IndexExact p :=
  addCerts_of_indexExact cs NewCertPool indexExact_new

theorem addCerts_pair (x y : Certificate) (h : x.RawSubject ≠ y.RawSubject) :
    ∃ p, addCerts NewCertPool [x, y] = some p ∧ p.certs = [x, y] := by
  obtain ⟨p1, h1, hex1, hc1⟩ := addCert_of_indexExact NewCertPool x indexExact_new
  obtain ⟨p2, h2, _, hc2⟩ := addCert_of_indexExact p1 y hex1
  have hc1b : p1.certs = [x] := by simpa [NewCertPool] using hc1
  have hc2b : p2.certs = [x, y] := by
    rw [hc2, hc1b]
    simp [storedTwin, Certificate.Equal, h]
  exact ⟨p2, by simp only [addCerts, h1, h2], hc2b⟩

theorem happy_walk (caPool : CertPool) (R I L : Certificate) (fuel : Nat)
    (hc : caPool.certs = [R, I] ∨ caPool.certs = [I, R])
    (hR : R.Subject.String = R.Issuer.String)
    (hI : I.Issuer.String = R.Subject.String)
    (hL : L.Issuer.String = I.Subject.String)
    (hIR : I.Subject.String ≠ R.Subject.String) :
    (mainCommand (fuel + 2) caPool L).1.buf = [L, I, R] ∧
      (mainCommand (fuel + 2) caPool L).1.cert = I ∧
      (mainCommand (fuel + 2) caPool L).2 = some WalkError.finishedLoop ∧
      (mainCommand (fuel + 2) caPool L).1.log.getLast? =
        some (DebugMsg.foundRoot R.Subject.String) := by
  have hRI : ¬ I.Subject.String = R.Subject.String := hIR
  have hRI2 : ¬ R.Subject.String = I.Subject.String := fun e => hIR e.symm
  rcases hc with hc | hc
  · simp [mainCommand, CertPool.Walk, hc, walkLoop, walkFunc, hR.symm, hI, hL, hRI, hRI2]
  · simp [mainCommand, CertPool.Walk, hc, walkLoop, walkFunc, hR.symm, hI, hL, hRI, hRI2]

theorem mainCommand_first_root (caPool : CertPool) (L c : Certificate)
    (pre post : List Certificate) (fuel : Nat)
    (hcerts : caPool.certs = pre ++ c :: post)
    (hpre : ∀ d ∈ pre, d.Subject.String ≠ L.Issuer.String)
    (hc : c.Subject.String = L.Issuer.String)
    (hr : c.Subject.String = c.Issuer.String) :
    (mainCommand (fuel + 1) caPool L).1.buf = [L, c] ∧
      (mainCommand (fuel + 1) caPool L).2 = some WalkError.foundRoot := by
  have hstep := walkLoop_first_issuer caPool fuel pre post c
    { cert := L, buf := [L], log := [] } hpre hc
  rw [← hcerts] at hstep
  rw [mainCommand_eq, hstep, walkFunc_root caPool fuel c
    { cert := L, buf := [L], log := [] ++ pre.map testingMsg } hc.symm hr]
  exact ⟨rfl, rfl⟩

/-! ## The properties -/

/-- C1, as the code behaves: the walk has no cycle detection. In a store that holds a
cross-signed pair `A`, `B` (the `String()` rendering of each one's issuer is the rendering
of the other's subject, for neither are the renderings of subject and issuer equal, and no
other stored certificate renders its subject as `A` or as `B` does), the recursion of the
walk started at leaf `A` is unbounded: at every recursion depth `fuel` the walk is still
recursing, not returned, and the buffer then holds `A` followed by the `fuel` certificates
`B, A, B, ...`. No terminal status is reached and the chain `A, B` is never returned. -/
theorem cross_signed_walk_diverges (caPool : CertPool) (A B : Certificate) (fuel : Nat)
    (hA : A ∈ caPool.certs) (hB : B ∈ caPool.certs)
    (hAB : A.Issuer.String = B.Subject.String) (hBA : B.Issuer.String = A.Subject.String)
    (hnA : A.Subject.String ≠ A.Issuer.String) (hnB : B.Subject.String ≠ B.Issuer.String)
    (hothers : ∀ c ∈ caPool.certs,
      (c.Subject.String = A.Subject.String → c = A) ∧
        (c.Subject.String = B.Subject.String → c = B)) :
    (mainCommand fuel caPool A).2 = some WalkError.outOfFuel ∧
      (mainCommand fuel caPool A).1.buf = A :: alternate fuel B A := by
  have h := (cycle_walk caPool A B hA hB hAB hBA hnA hnB
    (fun c hc => (hothers c hc).1) (fun c hc => (hothers c hc).2) fuel
    { cert := A, buf := [A], log := [] }).1 hAB
  rw [mainCommand_eq]
  exact ⟨h.2, by rw [h.1]; rfl⟩

/-- Witness for C1: the pair `exCrossA`, `exCrossB` with a budget of three levels. -/
theorem cross_signed_walk_diverges_witness :
    (mainCommand 3 (poolOf [exCrossA, exCrossB]) exCrossA).2 = some WalkError.outOfFuel ∧
      (mainCommand 3 (poolOf [exCrossA, exCrossB]) exCrossA).1.buf =
        exCrossA :: alternate 3 exCrossB exCrossA :=
  cross_signed_walk_diverges (poolOf [exCrossA, exCrossB]) exCrossA exCrossB 3
    (by decide) (by decide) (by decide) (by decide) (by decide) (by decide) (by decide)

/-- Counterexample to C1: with the cross-signed pair `exCrossA`, `exCrossB` in the store,
the walk from `exCrossA` exhausts every recursion budget (it does not terminate), and
with four levels it has already written `A, B, A, B, A`, not the chain `A, B`. -/
theorem cross_signed_walk_never_returns :
    (poolOf [exCrossA, exCrossB]).certs = [exCrossA, exCrossB] ∧
      (∀ fuel, (mainCommand fuel (poolOf [exCrossA, exCrossB]) exCrossA).2 =
        some WalkError.outOfFuel) ∧
      (mainCommand 4 (poolOf [exCrossA, exCrossB]) exCrossA).1.buf =
        [exCrossA, exCrossB, exCrossA, exCrossB, exCrossA] := by
  refine ⟨by decide, ?_, by decide⟩
  intro fuel
  have h := (cycle_walk (poolOf [exCrossA, exCrossB]) exCrossA exCrossB
    (by decide) (by decide) (by decide) (by decide) (by decide) (by decide)
    (by decide) (by decide) fuel { cert := exCrossA, buf := [exCrossA], log := [] }).1
    (by decide)
  rw [mainCommand_eq]
  exact h.2

/-- C2, as the code behaves: for a leaf `R` whose subject and issuer have the same
`String()` rendering and a store that holds no certificate whose subject is rendered as
`R`'s is, the walk, given a budget of one level or more, yields exactly the chain `[R]`.
It does so after testing every stored certificate, the outermost `Walk` returns nil, and
no root is reported: the leaf is not recognised as a root, the walk ends as it does for a
missing issuer. -/
theorem self_signed_leaf_alone (caPool : CertPool) (R : Certificate) (fuel : Nat)
    (hself : R.Subject.String = R.Issuer.String)
    (hstore : ∀ c ∈ caPool.certs, c.Subject.String ≠ R.Subject.String) :
    mainCommand (fuel + 1) caPool R =
        ({ cert := R, buf := [R], log := caPool.certs.map testingMsg }, none) ∧
      ∀ s, DebugMsg.foundRoot s ∉ (mainCommand (fuel + 1) caPool R).1.log := by
  have h := walkLoop_no_issuer caPool fuel caPool.certs { cert := R, buf := [R], log := [] }
    (fun c hc => by rw [← hself]; exact hstore c hc)
  rw [mainCommand_eq, h]
  exact ⟨by simp, by simp [testingMsg]⟩

/-- Witness for C2: the self-signed `exRoot` as leaf, the store holding `exInter` and
`exLeaf`. -/
theorem self_signed_leaf_alone_witness :
    mainCommand 1 (poolOf [exInter, exLeaf]) exRoot =
        ({ cert := exRoot, buf := [exRoot],
           log := (poolOf [exInter, exLeaf]).certs.map testingMsg }, none) ∧
      ∀ s, DebugMsg.foundRoot s ∉ (mainCommand 1 (poolOf [exInter, exLeaf]) exRoot).1.log :=
  self_signed_leaf_alone (poolOf [exInter, exLeaf]) exRoot 0 (by decide) (by decide)

/-- Counterexample to C2: the self-signed leaf `exRoot` with a store that holds `exRoot`
itself. The store is consulted, `exRoot` is found as its own issuer, and the output is
`exRoot` twice. -/
theorem self_signed_leaf_emitted_twice :
    exRoot.RawSubject = exRoot.RawIssuer ∧ exRoot.Subject.String = exRoot.Issuer.String ∧
      (poolOf [exRoot]).certs = [exRoot] ∧
      (mainCommand 1 (poolOf [exRoot]) exRoot).1.buf = [exRoot, exRoot] ∧
      (mainCommand 1 (poolOf [exRoot]) exRoot).2 = some WalkError.foundRoot := by
  decide

/-- C3, as the code behaves: for a root `R` whose subject and issuer have the same
`String()` rendering, an intermediate `I` whose issuer is rendered as `R`'s subject and a
leaf `L` whose issuer is rendered as `I`'s subject, the subjects of `I` and `R` differing
both in their rendering and in their encoded bytes: the store made from `NewCertPool` by
adding `R` then `I`, or `I` then `R`, holds exactly these two, and the walk from `L`,
given a budget of two levels or more, writes exactly `L, I, R` and returns having found
the root: the current certificate is left at `I` (the walk does not go on from `R`), the
last debug event is the root `R` found, and the outermost `Walk` returns the
`finished loop` error. -/
theorem happy_path_chain (R I L : Certificate) (fuel : Nat)
    (hR : R.Subject.String = R.Issuer.String)
    (hI : I.Issuer.String = R.Subject.String)
    (hL : L.Issuer.String = I.Subject.String)
    (hIR : I.Subject.String ≠ R.Subject.String)
    (hraw : R.RawSubject ≠ I.RawSubject) :
    (∃ p, addCerts NewCertPool [R, I] = some p ∧ p.certs = [R, I] ∧
        (mainCommand (fuel + 2) p L).1.buf = [L, I, R] ∧
        (mainCommand (fuel + 2) p L).1.cert = I ∧
        (mainCommand (fuel + 2) p L).2 = some WalkError.finishedLoop ∧
        (mainCommand (fuel + 2) p L).1.log.getLast? =
          some (DebugMsg.foundRoot R.Subject.String)) ∧
      (∃ p, addCerts NewCertPool [I, R] = some p ∧ p.certs = [I, R] ∧
        (mainCommand (fuel + 2) p L).1.buf = [L, I, R] ∧
        (mainCommand (fuel + 2) p L).1.cert = I ∧
        (mainCommand (fuel + 2) p L).2 = some WalkError.finishedLoop ∧
        (mainCommand (fuel + 2) p L).1.log.getLast? =
          some (DebugMsg.foundRoot R.Subject.String)) := by
  obtain ⟨p, hp, hpc⟩ := addCerts_pair R I hraw
  obtain ⟨q, hq, hqc⟩ := addCerts_pair I R (fun e => hraw e.symm)
  exact ⟨⟨p, hp, hpc, happy_walk p R I L fuel (Or.inl hpc) hR hI hL hIR⟩,
    ⟨q, hq, hqc, happy_walk q R I L fuel (Or.inr hqc) hR hI hL hIR⟩⟩

/-- Witness for C3: `exRoot`, `exInter`, `exLeaf`, with a budget of two levels. -/
theorem happy_path_chain_witness :
    (∃ p, addCerts NewCertPool [exRoot, exInter] = some p ∧ p.certs = [exRoot, exInter] ∧
        (mainCommand 2 p exLeaf).1.buf = [exLeaf, exInter, exRoot] ∧
        (mainCommand 2 p exLeaf).1.cert = exInter ∧
        (mainCommand 2 p exLeaf).2 = some WalkError.finishedLoop ∧
        (mainCommand 2 p exLeaf).1.log.getLast? =
          some (DebugMsg.foundRoot exRoot.Subject.String)) ∧
      (∃ p, addCerts NewCertPool [exInter, exRoot] = some p ∧ p.certs = [exInter, exRoot] ∧
        (mainCommand 2 p exLeaf).1.buf = [exLeaf, exInter, exRoot] ∧
        (mainCommand 2 p exLeaf).1.cert = exInter ∧
        (mainCommand 2 p exLeaf).2 = some WalkError.finishedLoop ∧
        (mainCommand 2 p exLeaf).1.log.getLast? =
          some (DebugMsg.foundRoot exRoot.Subject.String)) :=
  happy_path_chain exRoot exInter exLeaf 0 (by decide) (by decide) (by decide) (by decide)
    (by decide)

/-- Counterexample to C3: root `exRoot`, intermediate `exRootUtf8`, leaf `exLeafOfUtf8`.
In encoded bytes the root is self-signed, the intermediate's issuer is the root's subject,
the leaf's issuer is the intermediate's subject and the three subjects are pairwise
distinct; the subjects of root and intermediate are both rendered `CN=R`. With the store
built by adding the root then the intermediate the walk yields `L, R`; with the other
order it yields `L, I`; for every budget, and in neither case `L, I, R`. -/
theorem happy_path_same_rendering :
    exRoot.RawSubject = exRoot.RawIssuer ∧
      exRootUtf8.RawIssuer = exRoot.RawSubject ∧
      exLeafOfUtf8.RawIssuer = exRootUtf8.RawSubject ∧
      exRoot.RawSubject ≠ exRootUtf8.RawSubject ∧
      exRoot.RawSubject ≠ exLeafOfUtf8.RawSubject ∧
      exRootUtf8.RawSubject ≠ exLeafOfUtf8.RawSubject ∧
      addCerts NewCertPool [exRoot, exRootUtf8] = some (poolOf [exRoot, exRootUtf8]) ∧
      (poolOf [exRoot, exRootUtf8]).certs = [exRoot, exRootUtf8] ∧
      (∀ fuel, (mainCommand (fuel + 1) (poolOf [exRoot, exRootUtf8]) exLeafOfUtf8).1.buf =
          [exLeafOfUtf8, exRoot] ∧
        (mainCommand (fuel + 1) (poolOf [exRoot, exRootUtf8]) exLeafOfUtf8).2 =
          some WalkError.foundRoot) ∧
      addCerts NewCertPool [exRootUtf8, exRoot] = some (poolOf [exRootUtf8, exRoot]) ∧
      (poolOf [exRootUtf8, exRoot]).certs = [exRootUtf8, exRoot] ∧
      (∀ fuel, (mainCommand (fuel + 1) (poolOf [exRootUtf8, exRoot]) exLeafOfUtf8).1.buf =
          [exLeafOfUtf8, exRootUtf8] ∧
        (mainCommand (fuel + 1) (poolOf [exRootUtf8, exRoot]) exLeafOfUtf8).2 =
          some WalkError.foundRoot) :=
  ⟨by decide, by decide, by decide, by decide, by decide, by decide, rfl, by decide,
    fun fuel => mainCommand_first_root (poolOf [exRoot, exRootUtf8]) exLeafOfUtf8 exRoot
      [] [exRootUtf8] fuel (by decide) (by decide) (by decide) (by decide),
    rfl, by decide,
    fun fuel => mainCommand_first_root (poolOf [exRootUtf8, exRoot]) exLeafOfUtf8 exRootUtf8
      [] [exRoot] fuel (by decide) (by decide) (by decide) (by decide)⟩

/-- C4, as the code behaves: when the store holds, at its lowest position with a subject
rendered (by `String()`) as the current certificate's issuer is, the certificate `c1`,
and later another certificate `c2` whose subject is rendered the same, one pass of `Walk`
is exactly the visit of `c1`: the certificates before it are tested and passed over, the
certificates after it are not visited, `c1` is appended to the chain, and `c2` is
appended neither at that step nor at any step that follows from it. -/
theorem first_inserted_issuer_wins (caPool : CertPool) (st : WalkState) (fuel : Nat)
    (pre post : List Certificate) (c1 c2 : Certificate)
    (hcerts : caPool.certs = pre ++ c1 :: post)
    (hpre : ∀ c ∈ pre, c.Subject.String ≠ st.cert.Issuer.String)
    (h1 : c1.Subject.String = st.cert.Issuer.String)
    (_hc2 : c2 ∈ post) (h2 : c2.Subject.String = st.cert.Issuer.String) (hne : c2 ≠ c1) :
    (caPool.Walk (walkFunc caPool (fuel + 1)) st).2 =
        walkFunc caPool (fuel + 1) c1 { st with log := st.log ++ pre.map testingMsg } ∧
      ∃ tail, (caPool.Walk (walkFunc caPool (fuel + 1)) st).2.1.buf = st.buf ++ c1 :: tail ∧
        c2 ∉ tail := by
  have hstep := walkLoop_first_issuer caPool fuel pre post c1 st hpre h1
  rw [← hcerts] at hstep
  have hfirst1 : FirstWithSubject caPool.certs c1 :=
    ⟨pre, post, hcerts, fun z hz => by rw [h1]; exact hpre z hz⟩
  have hc2first : ¬ FirstWithSubject caPool.certs c2 := fun hf =>
    hne (firstWithSubject_unique caPool.certs c2 c1 hf hfirst1 (h2.trans h1.symm))
  refine ⟨hstep, ?_⟩
  show ∃ tail, (walkLoop (walkFunc caPool (fuel + 1)) caPool.certs st).1.buf =
    st.buf ++ c1 :: tail ∧ c2 ∉ tail
  rw [hstep]
  by_cases hr : c1.Subject.String = c1.Issuer.String
  · rw [walkFunc_root caPool fuel c1
      { cert := st.cert, buf := st.buf, log := st.log ++ pre.map testingMsg } h1.symm hr]
    exact ⟨[], rfl, List.not_mem_nil c2⟩
  · rw [walkFunc_climb caPool fuel c1
      { cert := st.cert, buf := st.buf, log := st.log ++ pre.map testingMsg } h1.symm hr]
    obtain ⟨tail, ht, hall⟩ := appended_first caPool fuel
      { cert := c1, buf := st.buf ++ [c1],
        log := st.log ++ pre.map testingMsg ++
          [testingMsg c1, DebugMsg.foundChain c1.Subject.String] }
    refine ⟨tail, ?_, fun hmem => hc2first (hall c2 hmem)⟩
    show (walkLoop (walkFunc caPool fuel) caPool.certs _).1.buf = _
    rw [ht]; simp

/-- Witness for C4: the store holds `exRoot`, `exInter`, `exInterTwin` in that order, the
current certificate is `exLeaf`, whose issuer names the subject of both intermediates. -/
theorem first_inserted_issuer_wins_witness :
    ((poolOf [exRoot, exInter, exInterTwin]).Walk
        (walkFunc (poolOf [exRoot, exInter, exInterTwin]) 3)
        { cert := exLeaf, buf := [exLeaf], log := [] }).2 =
        walkFunc (poolOf [exRoot, exInter, exInterTwin]) 3 exInter
          { cert := exLeaf, buf := [exLeaf], log := [] ++ [exRoot].map testingMsg } ∧
      ∃ tail, ((poolOf [exRoot, exInter, exInterTwin]).Walk
          (walkFunc (poolOf [exRoot, exInter, exInterTwin]) 3)
          { cert := exLeaf, buf := [exLeaf], log := [] }).2.1.buf =
            [exLeaf] ++ exInter :: tail ∧
        exInterTwin ∉ tail :=
  first_inserted_issuer_wins (poolOf [exRoot, exInter, exInterTwin])
    { cert := exLeaf, buf := [exLeaf], log := [] } 2 [exRoot] [exInterTwin] exInter
    exInterTwin (by decide) (by decide) (by decide) (by decide) (by decide) (by decide)

/-- Counterexample to C4: the store holds `exInterUtf8`, `exInter`, `exInterTwin`, `exRoot`
in that order and the current certificate is `exLeaf`. The stored certificates whose
subject bytes are the issuer bytes of `exLeaf` are `exInter` and `exInterTwin`, `exInter`
inserted first. The walk step selects `exInterUtf8`, whose subject is encoded in other
bytes and rendered alike; `exInter` is not appended. -/
theorem first_same_bytes_not_selected :
    exInter.RawSubject = exLeaf.RawIssuer ∧ exInterTwin.RawSubject = exLeaf.RawIssuer ∧
      exInter ≠ exInterTwin ∧
      exInterUtf8.RawSubject ≠ exLeaf.RawIssuer ∧ exRoot.RawSubject ≠ exLeaf.RawIssuer ∧
      addCerts NewCertPool [exInterUtf8, exInter, exInterTwin, exRoot] =
        some (poolOf [exInterUtf8, exInter, exInterTwin, exRoot]) ∧
      (poolOf [exInterUtf8, exInter, exInterTwin, exRoot]).certs =
        [exInterUtf8, exInter, exInterTwin, exRoot] ∧
      ((poolOf [exInterUtf8, exInter, exInterTwin, exRoot]).Walk
          (walkFunc (poolOf [exInterUtf8, exInter, exInterTwin, exRoot]) 2)
          { cert := exLeaf, buf := [exLeaf], log := [] }).2.1.buf =
        [exLeaf, exInterUtf8, exRoot] ∧
      ((poolOf [exInterUtf8, exInter, exInterTwin, exRoot]).Walk
          (walkFunc (poolOf [exInterUtf8, exInter, exInterTwin, exRoot]) 2)
          { cert := exLeaf, buf := [exLeaf], log := [] }).2.2 =
        some WalkError.finishedLoop :=
  ⟨by decide, by decide, by decide, by decide, by decide, rfl, by decide, by decide,
    by decide⟩

/-- C5, as the code behaves: `walkFunc` compares names by their `String()` renderings and
never reads `RawSubject` or `RawIssuer`. It selects the visited certificate `c` as the
issuer (appends it to the chain and ends the pass with a non-nil error) exactly when the
rendering of `c`'s subject equals the rendering of the current certificate's issuer, and
it then reports `c` as the root exactly when the renderings of `c`'s subject and issuer
are equal; otherwise it leaves the chain as it is and returns nil. -/
theorem walkFunc_matches_rendered_names (caPool : CertPool) (fuel : Nat) (c : Certificate)
    (st : WalkState) :
    if st.cert.Issuer.String = c.Subject.String then
      (∃ tail, (walkFunc caPool (fuel + 1) c st).1.buf = st.buf ++ c :: tail) ∧
        (walkFunc caPool (fuel + 1) c st).2 ≠ none ∧
        ((walkFunc caPool (fuel + 1) c st).2 = some WalkError.foundRoot ↔
          c.Subject.String = c.Issuer.String)
    else
      (walkFunc caPool (fuel + 1) c st).1.buf = st.buf ∧
        (walkFunc caPool (fuel + 1) c st).2 = none := by
  by_cases h : st.cert.Issuer.String = c.Subject.String
  · rw [if_pos h]
    refine ⟨?_, walkFunc_hit_ne_none caPool fuel c st h, ?_⟩
    · by_cases hr : c.Subject.String = c.Issuer.String
      · rw [walkFunc_root caPool fuel c st h hr]
        exact ⟨[], rfl⟩
      · rw [walkFunc_climb caPool fuel c st h hr]
        obtain ⟨tail, ht, _⟩ := appended_first caPool fuel
          { cert := c, buf := st.buf ++ [c],
            log := st.log ++ [testingMsg c, DebugMsg.foundChain c.Subject.String] }
        refine ⟨tail, ?_⟩
        show (walkLoop (walkFunc caPool fuel) caPool.certs _).1.buf = _
        rw [ht]; simp
    · by_cases hr : c.Subject.String = c.Issuer.String
      · rw [walkFunc_root caPool fuel c st h hr]
        simp [hr]
      · rw [walkFunc_climb caPool fuel c st h hr]
        constructor
        · intro hfound
          simp only [Option.some.injEq] at hfound
          split at hfound <;> cases hfound
        · intro hroot
          exact absurd hroot hr
  · rw [if_neg h, walkFunc_miss caPool fuel c st h]
    exact ⟨rfl, rfl⟩

/-- Counterexample to C5: the subject of `exRootUtf8` is encoded in other bytes than the
issuer of `exInter` and than its own issuer, and all three are rendered `CN=R`. The walk
from `exInter` selects `exRootUtf8` as the issuer and stops at it as the root. -/
theorem differently_encoded_name_matches :
    exRootUtf8.RawSubject ≠ exInter.RawIssuer ∧
      exRootUtf8.RawSubject ≠ exRootUtf8.RawIssuer ∧
      (poolOf [exRootUtf8]).certs = [exRootUtf8] ∧
      (mainCommand 1 (poolOf [exRootUtf8]) exInter).1.buf = [exInter, exRootUtf8] ∧
      (mainCommand 1 (poolOf [exRootUtf8]) exInter).2 = some WalkError.foundRoot := by
  decide

/-- C6, as the code behaves: for a leaf `L` whose subject and issuer are rendered
differently and a store in which no certificate's subject has the `String()` rendering of
`L`'s issuer, the walk, given a budget of one level or more, yields exactly the chain
`[L]`: every stored certificate is tested and passed over, the outermost `Walk` returns
nil (no failure is raised) and no root is reported. -/
theorem missing_issuer_stops_at_leaf (caPool : CertPool) (L : Certificate) (fuel : Nat)
    (_hL : L.Subject.String ≠ L.Issuer.String)
    (hnone : ∀ c ∈ caPool.certs, c.Subject.String ≠ L.Issuer.String) :
    (mainCommand (fuel + 1) caPool L).1.buf = [L] ∧
      (mainCommand (fuel + 1) caPool L).2 = none ∧
      (mainCommand (fuel + 1) caPool L).1.log = caPool.certs.map testingMsg ∧
      ∀ s, DebugMsg.foundRoot s ∉ (mainCommand (fuel + 1) caPool L).1.log := by
  have h := walkLoop_no_issuer caPool fuel caPool.certs { cert := L, buf := [L], log := [] }
    hnone
  rw [mainCommand_eq, h]
  exact ⟨rfl, rfl, by simp, by simp [testingMsg]⟩

/-- Witness for C6: the leaf `exLeaf`, the store holding the root `exRoot` only (the
intermediate is absent). -/
theorem missing_issuer_stops_at_leaf_witness :
    (mainCommand 1 (poolOf [exRoot]) exLeaf).1.buf = [exLeaf] ∧
      (mainCommand 1 (poolOf [exRoot]) exLeaf).2 = none ∧
      (mainCommand 1 (poolOf [exRoot]) exLeaf).1.log = (poolOf [exRoot]).certs.map testingMsg ∧
      ∀ s, DebugMsg.foundRoot s ∉ (mainCommand 1 (poolOf [exRoot]) exLeaf).1.log :=
  missing_issuer_stops_at_leaf (poolOf [exRoot]) exLeaf 0 (by decide) (by decide)

/-- Counterexample to C6: the leaf `exInter` is not self-signed and the only stored
certificate, `exRootUtf8`, has subject bytes other than the issuer bytes of the leaf; the
two names are rendered alike, `CN=R`. For every budget the walk yields
`exInter, exRootUtf8` and stops with the root found, not the chain `[exInter]`. -/
theorem missing_issuer_same_rendering :
    exInter.RawSubject ≠ exInter.RawIssuer ∧
      (∀ c ∈ (poolOf [exRootUtf8]).certs, c.RawSubject ≠ exInter.RawIssuer) ∧
      addCerts NewCertPool [exRootUtf8] = some (poolOf [exRootUtf8]) ∧
      (∀ fuel, (mainCommand (fuel + 1) (poolOf [exRootUtf8]) exInter).1.buf =
          [exInter, exRootUtf8] ∧
        (mainCommand (fuel + 1) (poolOf [exRootUtf8]) exInter).2 =
          some WalkError.foundRoot) :=
  ⟨by decide, by decide, rfl,
    fun fuel => mainCommand_first_root (poolOf [exRootUtf8]) exInter exRootUtf8 [] [] fuel
      (by decide) (by decide) (by decide) (by decide)⟩

/-- C7: in every pool made from `NewCertPool` by `AddCert` calls, adding a certificate `c`
and then adding `c` again leaves the pool of the first addition as it is: the second
`AddCert` returns, and `certs`, its length, `byName` and `bySubjectKeyID` are those left
by the first. -/
theorem addCert_twice_same_pool (cs : List Certificate) (c : Certificate) :
    ∃ p p1 p2, addCerts NewCertPool cs = some p ∧ p.AddCert c = some p1 ∧
      p1.AddCert c = some p2 ∧
      p2.certs.length = p1.certs.length ∧ p2.certs = p1.certs ∧
      p2.byName = p1.byName ∧ p2.bySubjectKeyID = p1.bySubjectKeyID := by
  obtain ⟨p, hp, hex⟩ := addCerts_total cs
  obtain ⟨p1, h1, hex1, hc1⟩ := addCert_of_indexExact p c hex
  have hin : p1.certs.any (storedTwin c) = true := by
    rw [hc1]
    by_cases hany : p.certs.any (storedTwin c) = true
    · simp only [hany, if_true]
    · simp only [hany, Bool.false_eq_true, if_false, List.any_append, List.any_cons,
        List.any_nil, Bool.or_false]
      simp [storedTwin, Certificate.Equal]
  have h2 : p1.AddCert c = some p1 := by
    unfold CertPool.AddCert
    rw [contains_of_indexExact p1 c hex1, hin]
  exact ⟨p, p1, p1, hp, h1, h2, rfl, rfl, rfl, rfl⟩

/-- C8: in every pool made from `NewCertPool` by `AddCert` calls on certificates as the
parser produces them, whose subject bytes are a part of their raw bytes (so that any two
of them with identical raw bytes have identical subject bytes), no two positions of
`certs` hold certificates with identical raw bytes, although `AddCert` compares the new
certificate only with the stored certificates listed under its subject bytes. -/
theorem raw_unique_of_parsed (cs : List Certificate) (h : RawDeterminesSubject cs) :
    ∃ p, addCerts NewCertPool cs = some p ∧ RawUnique p := by
  obtain ⟨p, hp, hnd⟩ := addCerts_nodup cs h cs NewCertPool indexExact_new
    (by simp [NewCertPool]) (by simp [NewCertPool]) (fun a ha => ha)
  exact ⟨p, hp, rawUnique_of_nodup p hnd⟩

/-- Witness for C8: `exRoot`, `exInter`, `exRoot` again, `exLeaf`. -/
theorem raw_unique_of_parsed_witness :
    ∃ p, addCerts NewCertPool [exRoot, exInter, exRoot, exLeaf] = some p ∧ RawUnique p :=
  raw_unique_of_parsed [exRoot, exInter, exRoot, exLeaf] (by
    unfold RawDeterminesSubject
    decide)

/-- C9: in every pool made from `NewCertPool` by `AddCert` calls, for every subject byte
string `k`, `byName[k]` is the list, in increasing order, of exactly the positions of
`certs` whose certificate has `RawSubject = k` (the empty list when there is none): it is
strictly increasing, each index is a valid position, and reading `certs` at these indices
gives all and only the stored certificates with that subject, in insertion order. -/
theorem byName_exact (cs : List Certificate) :
    ∃ p, addCerts NewCertPool cs = some p ∧ ∀ k : Bytes,
      p.byName k = (List.range p.certs.length).filter
          (fun i => decide ((p.certs[i]?).map Certificate.RawSubject = some k)) ∧
        List.Pairwise (fun i j => i < j) (p.byName k) ∧
        (∀ i ∈ p.byName k, i < p.certs.length) ∧
        (p.byName k).filterMap (fun i => p.certs[i]?) =
          p.certs.filter (fun c => decide (c.RawSubject = k)) := by
  obtain ⟨p, hp, hex⟩ := addCerts_total cs
  refine ⟨p, hp, fun k => ⟨hex k, ?_, ?_, ?_⟩⟩
  · rw [hex k]
    exact List.Pairwise.sublist (List.filter_sublist _) (List.pairwise_lt_range _)
  · intro i hi
    rw [hex k] at hi
    simp only [List.mem_filter, List.mem_range] at hi
    exact hi.1
  · rw [hex k]
    exact lookup_eq_filter k p.certs

/-- C10: `Walk` applies the visit function to the stored certificates in insertion order.
With `k` the first position at which the visit function returns a non-nil error, `Walk`
returns that same error, and the visit function has been applied to the certificates at
positions `0..k` and to no other; when it returns nil at every position, it has been
applied to all of `certs` and `Walk` returns nil. The pool `Walk` leaves behind is the
pool it was called on. -/
theorem walk_interruptible {σ ε : Type} (s : CertPool)
    (visit : Certificate → σ → σ × Option ε) (st : σ) :
    ∃ k, k ≤ s.certs.length ∧ (∀ j, j < k → returnedAt visit s.certs st j = none) ∧
      ((k = s.certs.length ∧
          s.Walk visit st = (s, visitAll visit s.certs st, none) ∧
          s.Walk (traced visit) (st, []) = (s, (visitAll visit s.certs st, s.certs), none)) ∨
        (k < s.certs.length ∧ ∃ e, returnedAt visit s.certs st k = some e ∧
          s.Walk visit st = (s, visitAll visit (s.certs.take (k + 1)) st, some e) ∧
          s.Walk (traced visit) (st, []) =
            (s, (visitAll visit (s.certs.take (k + 1)) st, s.certs.take (k + 1)), some e))) := by
  obtain ⟨k, hk, hbefore, hcase⟩ := walkLoop_spec visit s.certs st []
  refine ⟨k, hk, hbefore, ?_⟩
  rcases hcase with ⟨hlen, h1, h2⟩ | ⟨hlt, e, he, h1, h2⟩
  · exact Or.inl ⟨hlen, by simp only [CertPool.Walk, h1], by
      simp only [CertPool.Walk, h2, List.nil_append]⟩
  · exact Or.inr ⟨hlt, e, he, by simp only [CertPool.Walk, h1], by
      simp only [CertPool.Walk, h2, List.nil_append]⟩

end Swim
